import Mathlib

/-!
Verification of the Salesforce policy-bot retrieval core.

The TypeScript source is embedded shallowly:

* `SimpleMongoRetriever.cosine` and `_getRelevantDocuments` (rag service file,
  lines 23-60) become `cosine`, `scoreRows`, `scoredTopK`: vectors are lists of
  real numbers, the ECMAScript stable sort with comparator
  `(a, b) => b.score - a.score` is rendered as a stable insertion sort by
  non-increasing score.
* `RAGService.query`, its memory handling and `buildConversationHistory`
  (lines 143-202) become a state-passing function `queryModel`; the outcome of
  the generation chain is passed in as an `Except` value (`.error` models a
  thrown exception caught by the `catch` block).  The ECMAScript idiom
  `arr.slice(-n)` (which returns the whole array when `n = 0`) is modelled by
  `jsSliceNeg`.
* the feature-flagged search adapters `textSearch` / `vectorSearch` become
  functions returning `Except String SearchCall`: an `.error` is raised before
  any call descriptor for the external index is built.
* the sequential embedding fallback loop of `initializeVectorStore` becomes
  `embedIndividually`.
* the chunker is not part of the repository (it is the external
  `RecursiveCharacterTextSplitter` library); `splitText` is modelled from the
  specification instead.
-/

namespace SalesforceBot

/-- A stored chunk record, as inserted into the Mongo collection:
`{ content, metadata, embedding }`.  Metadata is kept as an uninterpreted
string blob, the embedding as a list of reals. -/
structure Row where
  content : String
  metadata : String
  embedding : List ℝ

/-- Sum of squares of the entries of a list, i.e. the accumulator `na`
(respectively `nb`) of the loop in `SimpleMongoRetriever.cosine`. -/
def sqSum (l : List ℝ) : ℝ :=
  (l.map (fun x => x * x)).sum

/-- The accumulator `dot` of the loop in `SimpleMongoRetriever.cosine`: the
loop runs over the indices of `a`, so the product list is truncated at
`a.length` (entries of `b` beyond that are ignored, exactly as in the source
loop `for (let i = 0; i < a.length; i++)`). -/
def dotSum (a b : List ℝ) : ℝ :=
  (List.zipWith (fun x y => x * y) a b).sum

/-- `SimpleMongoRetriever.cosine` (lines 23-34): cosine similarity with the
zero-norm guard `if (na === 0 || nb === 0) return 0`.  The `nb` accumulator
only sees the first `a.length` entries of `b`, hence the `b.take a.length`.
This embedding is faithful to the source whenever `a.length ≤ b.length`
(otherwise the source reads past the end of `b` and produces NaN, which real
arithmetic does not represent). -/
noncomputable def cosine (a b : List ℝ) : ℝ :=
  if sqSum a = 0 ∨ sqSum (b.take a.length) = 0 then 0
  else dotSum a b / (Real.sqrt (sqSum a) * Real.sqrt (sqSum (b.take a.length)))

/-- One element of the intermediate `scored` array of
`_getRelevantDocuments`: `{ score, doc }`. -/
structure Scored where
  score : ℝ
  doc : Row

/-- The comparator `(a, b) => b.score - a.score` of the source sort, read as a
relation: `x` may come before `y` iff `y.score ≤ x.score` (descending). -/
def scoredGE (x y : Scored) : Prop := y.score ≤ x.score

noncomputable instance : DecidableRel scoredGE :=
  fun x y => Real.decidableLE y.score x.score

instance : IsTotal Scored scoredGE := ⟨fun a b => le_total b.score a.score⟩

instance : IsTrans Scored scoredGE := ⟨fun _ _ _ h1 h2 => le_trans h2 h1⟩

/-- The `rows.map((r) => ({ score: cosine(qVec, r.embedding), doc: r }))` step
of `_getRelevantDocuments` (lines 50-54). -/
noncomputable def scoreRows (q : List ℝ) (rows : List Row) : List Scored :=
  rows.map (fun r => ⟨cosine q r.embedding, r⟩)

/-- The `.sort((a, b) => b.score - a.score).slice(0, topK)` step of
`_getRelevantDocuments` (lines 55-56).  ECMAScript `Array.prototype.sort` is
stable and the comparator is a consistent total preorder on (non-NaN) scores,
so its result coincides with a stable insertion sort by `scoredGE`. -/
noncomputable def scoredTopK (q : List ℝ) (rows : List Row) (topK : ℕ) : List Scored :=
  (List.insertionSort scoredGE (scoreRows q rows)).take topK

/-- The final `scored.map((s) => ({ pageContent, metadata }))` of
`_getRelevantDocuments` (line 59): scores are dropped from the result. -/
noncomputable def getRelevantDocuments (q : List ℝ) (rows : List Row) (topK : ℕ) :
    List (String × String) :=
  (scoredTopK q rows topK).map (fun s => (s.doc.content, s.doc.metadata))

/-- Instrumented copy of `Scored` that additionally records the position
`idx` the row had in the stored collection, used only to state the stability
of the sort (the source carries no such index). -/
structure ScoredIdx where
  score : ℝ
  idx : ℕ
  doc : Row

/-- The sort relation `scoredGE`, lifted to index-instrumented entries (the
index takes no part in the comparison, exactly as in the source). -/
def scoredIdxGE (x y : ScoredIdx) : Prop := y.score ≤ x.score

noncomputable instance : DecidableRel scoredIdxGE :=
  fun x y => Real.decidableLE y.score x.score

/-- Index-instrumented version of `scoreRows`: each scored entry remembers the
insertion position of its row. -/
noncomputable def scoreRowsIdx (q : List ℝ) (rows : List Row) : List ScoredIdx :=
  rows.enum.map (fun p => ⟨cosine q p.2.embedding, p.1, p.2⟩)

/-- Forgetting the instrumentation index recovers a plain scored entry. -/
def eraseIdx (x : ScoredIdx) : Scored := ⟨x.score, x.doc⟩

/-- Strict descending order with ties broken by insertion position: the
defining property of the stable descending sort performed by
`_getRelevantDocuments`. -/
def stableRel (x y : ScoredIdx) : Prop :=
  y.score < x.score ∨ (x.score = y.score ∧ x.idx < y.idx)

/-- Conversation roles of `RAGService.memory` entries. -/
inductive Role where
  | user
  | assistant
deriving DecidableEq, Repr

/-- One element of `RAGService.memory`: `{ role, content }`. -/
structure Turn where
  role : Role
  content : String
deriving DecidableEq, Repr

/-- ECMAScript `arr.slice(-n)` for a natural `n`: the last `n` elements,
except that `slice(-0)` is `slice(0)`, i.e. the whole array. -/
def jsSliceNeg (n : ℕ) (l : List α) : List α :=
  if n = 0 then l else l.drop (l.length - n)

/-- The trimming step of `RAGService.query` (lines 172-175 and 184-186) and
`setMaxMemoryTurns` (lines 216-218):
`if (memory.length > maxMemoryTurns * 2) memory = memory.slice(-maxMemoryTurns * 2)`. -/
def trimMemory (maxT : ℕ) (mem : List Turn) : List Turn :=
  if mem.length > maxT * 2 then jsSliceNeg (maxT * 2) mem else mem

/-- Push one turn onto memory and re-apply the bound, the
`memory.push(turn); if (...) memory = memory.slice(...)` unit used for both
the user turn (lines 170-175) and the assistant turn (lines 183-186). -/
def pushAndTrim (maxT : ℕ) (mem : List Turn) (t : Turn) : List Turn :=
  trimMemory maxT (mem ++ [t])

/-- Renders one memory entry as in `buildConversationHistory` (line 200). -/
def renderTurn (m : Turn) : String :=
  match m.role with
  | Role.user => "User: " ++ m.content
  | Role.assistant => "Assistant: " ++ m.content

/-- `RAGService.buildConversationHistory` (lines 196-202):
`memory.slice(-maxMemoryTurns * 2).map(render).join("\n")`. -/
def buildConversationHistory (maxT : ℕ) (mem : List Turn) : String :=
  String.intercalate "\n" ((jsSliceNeg (maxT * 2) mem).map renderTurn)

/-- The mutable state of `RAGService` relevant to `query`: whether
`this.retriever` has been set by `initializeVectorStore`, the conversation
memory, and `maxMemoryTurns` (10 by default). -/
structure RAGState where
  retrieverSet : Bool
  memory : List Turn
  maxMemoryTurns : ℕ

/-- `RAGService.query` (lines 143-193) as a state-passing function.  The
`chainResult` argument stands for the outcome of `await this.chain.invoke`:
`.ok answer` is a successful generation, `.error ()` a thrown exception.  The
guard on line 144 returns the fixed not-initialized string; the `try` block
first pushes (and trims) the user turn, then on success pushes the assistant
turn, while the `catch` block returns the fixed error string with the user
turn already recorded. -/
def queryModel (st : RAGState) (question : String) (chainResult : Except Unit String) :
    RAGState × String :=
  if st.retrieverSet = false then (st, "Vector store not initialized.")
  else
    let mem1 := pushAndTrim st.maxMemoryTurns st.memory ⟨Role.user, question⟩
    match chainResult with
    | Except.error _ => ({ st with memory := mem1 }, "An error occurred while processing your request.")
    | Except.ok answer =>
        let mem2 := pushAndTrim st.maxMemoryTurns mem1 ⟨Role.assistant, answer⟩
        ({ st with memory := mem2 }, answer)

/-- ECMAScript `process.env.X || dflt`: the default replaces both a missing
variable and the (falsy) empty string. -/
def envOr (v : Option String) (dflt : String) : String :=
  match v with
  | none => dflt
  | some s => if s = "" then dflt else s

/-- Character-wise lowercasing, the semantics of `toLowerCase()` on the ASCII
flag values involved (written out so that the kernel can evaluate it). -/
def strToLower (s : String) : String :=
  ⟨s.data.map Char.toLower⟩

/-- The runtime-flag check shared by both adapters:
`(process.env.FLAG || "true").toLowerCase() === "true"`. -/
def flagEnabled (v : Option String) : Bool :=
  strToLower (envOr v "true") == "true"

/-- The optional equality filter `{ path, value }` of the search adapters. -/
structure MongoFilter where
  path : String
  value : String

/-- A search clause of the `$search` stage body: either a `text` clause
(`textSearch`) or a `knn` clause (`vectorSearch`). -/
inductive SearchClause where
  | text (query : String) (path : List String)
  | knn (path : String) (vector : List ℝ) (k : ℕ)

/-- The `$search` body: the bare clause, or a `compound` wrapping of the
clause with an `equals` filter. -/
inductive SearchBody where
  | plain (c : SearchClause)
  | compound (must : SearchClause) (filterPath : String) (filterValue : String)

/-- The aggregate pipeline handed to the external index service: index name,
`$search` body, and the optional `$limit` stage. -/
structure SearchCall where
  index : String
  body : SearchBody
  limit : Option ℕ

/-- `textSearch` of the keyword adapter (lines 12-47): the BM25 flag is
checked first and, when it is off, the function throws (here: returns
`.error`) before any client connection or pipeline is built; otherwise the
pipeline descriptor sent to the external index is returned. -/
def textSearch (bm25Flag : Option String) (indexName : String) (query : String)
    (path : List String) (limit : ℕ) (filter : Option MongoFilter) :
    Except String SearchCall :=
  if flagEnabled bm25Flag = false then
    Except.error "BM25 text search disabled via BM25_SEARCH_ENABLED=false"
  else
    match filter with
    | some f =>
        Except.ok ⟨indexName, SearchBody.compound (SearchClause.text query path) f.path f.value,
          some limit⟩
    | none => Except.ok ⟨indexName, SearchBody.plain (SearchClause.text query path), some limit⟩

/-- `vectorSearch` of `src/search/vector_search.ts` (lines 12-48): same
fail-fast structure as `textSearch`, with a `knn` clause and no `$limit`
stage. -/
def vectorSearch (vectorFlag : Option String) (indexName : String) (queryVector : List ℝ)
    (k : ℕ) (filter : Option MongoFilter) : Except String SearchCall :=
  if flagEnabled vectorFlag = false then
    Except.error "Vector search disabled via VECTOR_SEARCH_ENABLED=false"
  else
    match filter with
    | some f =>
        Except.ok ⟨indexName,
          SearchBody.compound (SearchClause.knn "embedding" queryVector k) f.path f.value, none⟩
    | none =>
        Except.ok ⟨indexName, SearchBody.plain (SearchClause.knn "embedding" queryVector k), none⟩

/-- The sequential embedding fallback of `initializeVectorStore` (lines
122-131): `vectors = []; for (const t of texts) vectors.push(embedQuery(t))`.
The per-item provider call is the opaque function `embedQuery`. -/
def embedIndividually (embedQuery : String → List ℝ) (texts : List String) :
    List (List ℝ) :=
  texts.foldl (fun vectors t => vectors ++ [embedQuery t]) []

/-- Recursion worker for `splitText`; the fuel argument makes the recursion
structural (it is irrelevant as long as it is at least the text length, see
`splitTextGo_fuel`). -/
def splitTextGo (c o : ℕ) : ℕ → List α → List (List α)
  | 0, text => if text.length = 0 then [] else [text]
  | fuel + 1, text =>
      if text.length = 0 then []
      else if text.length ≤ c ∨ c ≤ o then [text]
      else text.take c :: splitTextGo c o fuel (text.drop (c - o))

/-- Modelled from the spec: the Chunker contract `split(rawText, sourceId)` of
section 4.1.  The splitting itself is performed by the external
`RecursiveCharacterTextSplitter` library (configured in `loadAndSplitFile`
with `chunkSize 1000`, `chunkOverlap 100`), whose code is not part of this
repository; this definition follows the spec words "segments of at most
`chunkSize` characters with `chunkOverlap` characters shared between
consecutive segments" and "empty input → empty result", leaving the
break-at-separator preference heuristic unmodelled (a hard character cut at
every boundary).  The fuel argument of `splitTextGo` only drives structural
recursion; `splitText_eq` below shows the intended recurrence. -/
def splitText (c o : ℕ) (text : List α) : List (List α) :=
  splitTextGo c o text.length text

/-- The last `n` elements of a list (all of it when it is shorter): the
normal form of the memory windows kept by `pushAndTrim`, used in proofs. -/
def keepLast (n : ℕ) (l : List α) : List α :=
  l.drop (l.length - n)

/-! ### Helper lemmas about the cosine score -/

theorem sqSum_nonneg (l : List ℝ) : 0 ≤ sqSum l := by
  induction l with
  | nil => simp [sqSum]
  | cons x l ih =>
      simp only [sqSum, List.map_cons, List.sum_cons] at *
      nlinarith [mul_self_nonneg x]

theorem sqSum_cons (x : ℝ) (l : List ℝ) : sqSum (x :: l) = x * x + sqSum l := by
  simp [sqSum]

theorem dotSum_cons (x y : ℝ) (a b : List ℝ) :
    dotSum (x :: a) (y :: b) = x * y + dotSum a b := by
  simp [dotSum]

/-- The quadratic form `nb·t² + 2·dot·t + na` is a sum of squares, hence
nonnegative for every `t`; this is the standard route to Cauchy-Schwarz. -/
theorem quad_nonneg (a : List ℝ) : ∀ (b : List ℝ) (t : ℝ),
    0 ≤ sqSum (b.take a.length) * (t * t) + 2 * dotSum a b * t + sqSum a := by
  induction a with
  | nil => intro b t; simp [sqSum, dotSum]
  | cons x a ih =>
      intro b t
      cases b with
      | nil =>
          simpa [sqSum, dotSum] using sqSum_nonneg (x :: a)
      | cons y b =>
          have h := ih b t
          simp only [List.length_cons, List.take_succ_cons, sqSum_cons, dotSum_cons] at *
          nlinarith [sq_nonneg (x + t * y)]

/-- Cauchy-Schwarz for the accumulators of `cosine`:
`dot² ≤ na · nb`. -/
theorem dotSum_sq_le (a b : List ℝ) :
    dotSum a b * dotSum a b ≤ sqSum a * sqSum (b.take a.length) := by
  have h := discrim_le_zero (a := sqSum (b.take a.length)) (b := 2 * dotSum a b) (c := sqSum a)
    (fun t => quad_nonneg a b t)
  simp only [discrim] at h
  nlinarith

/-- The cosine score always lies in `[-1, 1]`. -/
theorem cosine_mem_Icc (a b : List ℝ) : -1 ≤ cosine a b ∧ cosine a b ≤ 1 := by
  unfold cosine
  split_ifs with h
  · norm_num
  · push_neg at h
    obtain ⟨ha, hb⟩ := h
    have hna : 0 < sqSum a := lt_of_le_of_ne (sqSum_nonneg a) (Ne.symm ha)
    have hnb : 0 < sqSum (b.take a.length) :=
      lt_of_le_of_ne (sqSum_nonneg (b.take a.length)) (Ne.symm hb)
    have hs : 0 < Real.sqrt (sqSum a) * Real.sqrt (sqSum (b.take a.length)) :=
      mul_pos (Real.sqrt_pos.mpr hna) (Real.sqrt_pos.mpr hnb)
    have hs2 : (Real.sqrt (sqSum a) * Real.sqrt (sqSum (b.take a.length))) *
        (Real.sqrt (sqSum a) * Real.sqrt (sqSum (b.take a.length))) =
        sqSum a * sqSum (b.take a.length) := by
      rw [mul_mul_mul_comm, Real.mul_self_sqrt (le_of_lt hna),
        Real.mul_self_sqrt (le_of_lt hnb)]
    have hcs := dotSum_sq_le a b
    constructor
    · rw [le_div_iff₀ hs]
      nlinarith [sq_nonneg (dotSum a b + Real.sqrt (sqSum a) * Real.sqrt (sqSum (b.take a.length)))]
    · rw [div_le_one hs]
      nlinarith [sq_nonneg (dotSum a b - Real.sqrt (sqSum a) * Real.sqrt (sqSum (b.take a.length)))]

/-! ### C1 and C2: order and range of the retrieval scores -/

/-- C1: for every stored chunk set and every query vector (of the dimension
shared by all stored embeddings), `_getRelevantDocuments` produces its hits
sorted by non-increasing cosine score, and every computed score lies in
`[-1, 1]`. -/
theorem retrieval_sorted_and_bounded (q : List ℝ) (rows : List Row) (topK : ℕ)
    (_hdim : ∀ r ∈ rows, r.embedding.length = q.length) :
    List.Pairwise scoredGE (scoredTopK q rows topK) ∧
    ∀ s ∈ scoredTopK q rows topK, -1 ≤ s.score ∧ s.score ≤ 1 := by
  constructor
  · exact List.Pairwise.sublist (List.take_sublist _ _)
      (List.sorted_insertionSort scoredGE (scoreRows q rows))
  · intro s hs
    simp only [scoredTopK] at hs
    have hmem : s ∈ scoreRows q rows :=
      (List.mem_insertionSort scoredGE).mp (List.mem_of_mem_take hs)
    obtain ⟨r, _, rfl⟩ := List.mem_map.mp hmem
    exact cosine_mem_Icc q r.embedding

/-- Witness for C1 at the spec scenario: chunk embeddings `[1,0]` and `[0,1]`,
query embedding `[0.9, 0.1]`. -/
theorem retrieval_sorted_and_bounded_witness :
    List.Pairwise scoredGE
      (scoredTopK [0.9, 0.1]
        [⟨"Vacation: 20 days/year.", "hr", [1, 0]⟩, ⟨"Dress code: casual.", "hr", [0, 1]⟩] 1) ∧
    ∀ s ∈ scoredTopK [0.9, 0.1]
        [⟨"Vacation: 20 days/year.", "hr", [1, 0]⟩, ⟨"Dress code: casual.", "hr", [0, 1]⟩] 1,
      -1 ≤ s.score ∧ s.score ≤ 1 :=
  retrieval_sorted_and_bounded [0.9, 0.1]
    [⟨"Vacation: 20 days/year.", "hr", [1, 0]⟩, ⟨"Dress code: casual.", "hr", [0, 1]⟩] 1
    (by intro r hr; fin_cases hr <;> rfl)

/-- C2: a zero-norm vector on either side makes `cosine` return exactly `0`
(the guard fires before the division), and a zero-vector query scores `0`
against every stored chunk. -/
theorem cosine_zero_norm_eq_zero :
    (∀ a b : List ℝ, a.length = b.length → (sqSum a = 0 ∨ sqSum b = 0) → cosine a b = 0) ∧
    (∀ (n : ℕ) (rows : List Row), ∀ s ∈ scoreRows (List.replicate n 0) rows, s.score = 0) := by
  have hz : ∀ a b : List ℝ, sqSum a = 0 ∨ sqSum (b.take a.length) = 0 → cosine a b = 0 := by
    intro a b h
    unfold cosine
    rw [if_pos h]
  constructor
  · intro a b hlen h
    apply hz
    rcases h with h | h
    · exact Or.inl h
    · right
      rwa [hlen, List.take_length]
  · intro n rows s hs
    obtain ⟨r, _, rfl⟩ := List.mem_map.mp hs
    apply hz
    left
    simp [sqSum, List.map_replicate]

/-- Witness for C2: the zero vector against `[3, 4]`, and a zero-vector query
over a one-chunk corpus. -/
theorem cosine_zero_norm_eq_zero_witness :
    cosine [0, 0] [3, 4] = 0 ∧
    ∀ s ∈ scoreRows (List.replicate 2 (0 : ℝ)) [⟨"a", "m", [3, 4]⟩], s.score = 0 :=
  ⟨cosine_zero_norm_eq_zero.1 [0, 0] [3, 4] rfl (Or.inl (by norm_num [sqSum])),
   cosine_zero_norm_eq_zero.2 2 [⟨"a", "m", [3, 4]⟩]⟩

/-! ### C5: stability of the descending sort and the `k ≥ corpus` case -/

theorem pairwise_stable_orderedInsert (x : ScoredIdx) (l : List ScoredIdx)
    (hl : List.Pairwise stableRel l) (hx : ∀ y ∈ l, x.idx < y.idx) :
    List.Pairwise stableRel (List.orderedInsert scoredIdxGE x l) := by
  induction l with
  | nil => simp [List.orderedInsert]
  | cons y l ih =>
      simp only [List.orderedInsert]
      split_ifs with h
      · rw [List.pairwise_cons]
        refine ⟨?_, hl⟩
        intro z hz
        rcases List.mem_cons.mp hz with rfl | hz'
        · rcases lt_or_eq_of_le (h : z.score ≤ x.score) with hlt | heq
          · exact Or.inl hlt
          · exact Or.inr ⟨heq.symm, hx z (List.mem_cons_self _ _)⟩
        · have hyz := (List.pairwise_cons.mp hl).1 z hz'
          rcases hyz with hlt | ⟨heq, _⟩
          · exact Or.inl (lt_of_lt_of_le hlt (h : y.score ≤ x.score))
          · rcases lt_or_eq_of_le (h : y.score ≤ x.score) with h2 | h2
            · exact Or.inl (heq ▸ h2)
            · exact Or.inr ⟨by rw [← h2, heq], hx z (List.mem_cons_of_mem _ hz')⟩
      · have hxy : x.score < y.score := lt_of_not_le h
        rw [List.pairwise_cons]
        constructor
        · intro z hz
          rcases (List.mem_orderedInsert scoredIdxGE).mp hz with rfl | hz'
          · exact Or.inl hxy
          · exact (List.pairwise_cons.mp hl).1 z hz'
        · exact ih (List.pairwise_cons.mp hl).2 (fun z hz => hx z (List.mem_cons_of_mem _ hz))

theorem pairwise_stable_insertionSort (l : List ScoredIdx)
    (h : List.Pairwise (fun a b => a.idx < b.idx) l) :
    List.Pairwise stableRel (List.insertionSort scoredIdxGE l) := by
  induction l with
  | nil => simp
  | cons x l ih =>
      simp only [List.insertionSort]
      obtain ⟨h1, h2⟩ := List.pairwise_cons.mp h
      exact pairwise_stable_orderedInsert x _ (ih h2)
        (fun y hy => h1 y ((List.mem_insertionSort scoredIdxGE).mp hy))

theorem scoreRowsIdx_pairwise_idx (q : List ℝ) (rows : List Row) :
    List.Pairwise (fun a b => a.idx < b.idx) (scoreRowsIdx q rows) := by
  unfold scoreRowsIdx
  refine List.Pairwise.map _ (fun a b hab => hab) ?_
  rw [List.pairwise_iff_get]
  intro i j hij
  simp only [List.get_eq_getElem, List.getElem_enum]
  exact hij

theorem scoreRowsIdx_map_eraseIdx (q : List ℝ) (rows : List Row) :
    (scoreRowsIdx q rows).map eraseIdx = scoreRows q rows := by
  unfold scoreRowsIdx scoreRows eraseIdx
  rw [List.map_map]
  have h : rows.map (fun r => (⟨cosine q r.embedding, r⟩ : Scored)) =
      (rows.enum.map Prod.snd).map (fun r => (⟨cosine q r.embedding, r⟩ : Scored)) := by
    rw [List.enum_map_snd]
  rw [h, List.map_map]
  rfl

/-- C5: the retriever returns the top-`k` by descending score with ties broken
by insertion order (the sort is stable), and a `k` at least the corpus size
returns the whole corpus sorted.  Stability is expressed on the
index-instrumented copy of the pipeline, which erases (`eraseIdx`) to the
actual one. -/
theorem topk_stable_sort (q : List ℝ) (rows : List Row) (topK : ℕ) :
    List.Pairwise stableRel ((List.insertionSort scoredIdxGE (scoreRowsIdx q rows)).take topK) ∧
    ((List.insertionSort scoredIdxGE (scoreRowsIdx q rows)).take topK).map eraseIdx =
      scoredTopK q rows topK ∧
    (scoredTopK q rows topK).length = min topK rows.length ∧
    (rows.length ≤ topK →
      scoredTopK q rows topK = List.insertionSort scoredGE (scoreRows q rows) ∧
      (scoredTopK q rows topK).Perm (scoreRows q rows)) := by
  have herase : (List.insertionSort scoredIdxGE (scoreRowsIdx q rows)).map eraseIdx =
      List.insertionSort scoredGE (scoreRows q rows) := by
    rw [List.map_insertionSort scoredIdxGE scoredGE eraseIdx _ (fun a _ b _ => Iff.rfl),
      scoreRowsIdx_map_eraseIdx]
  have hlen : (List.insertionSort scoredGE (scoreRows q rows)).length = rows.length := by
    rw [List.length_insertionSort]
    simp [scoreRows]
  refine ⟨?_, ?_, ?_, ?_⟩
  · exact List.Pairwise.sublist (List.take_sublist _ _)
      (pairwise_stable_insertionSort _ (scoreRowsIdx_pairwise_idx q rows))
  · rw [List.map_take, herase]
    rfl
  · simp only [scoredTopK, List.length_take, hlen]
  · intro hk
    have htake : scoredTopK q rows topK = List.insertionSort scoredGE (scoreRows q rows) := by
      simp only [scoredTopK]
      exact List.take_of_length_le (by rw [hlen]; exact hk)
    refine ⟨htake, ?_⟩
    rw [htake]
    exact List.perm_insertionSort scoredGE (scoreRows q rows)

/-- Witness for C5 at a one-chunk corpus with `k = 1`. -/
theorem topk_stable_sort_witness :
    List.Pairwise stableRel
      ((List.insertionSort scoredIdxGE (scoreRowsIdx [1] [⟨"a", "m", [1]⟩])).take 1) ∧
    ((List.insertionSort scoredIdxGE (scoreRowsIdx [1] [⟨"a", "m", [1]⟩])).take 1).map eraseIdx =
      scoredTopK [1] [⟨"a", "m", [1]⟩] 1 ∧
    (scoredTopK [1] [⟨"a", "m", [1]⟩] 1).length = min 1 [Row.mk "a" "m" [1]].length ∧
    (scoredTopK [1] [⟨"a", "m", [1]⟩] 1 =
      List.insertionSort scoredGE (scoreRows [1] [⟨"a", "m", [1]⟩]) ∧
    (scoredTopK [1] [⟨"a", "m", [1]⟩] 1).Perm (scoreRows [1] [⟨"a", "m", [1]⟩])) := by
  have h := topk_stable_sort [1] [⟨"a", "m", [1]⟩] 1
  exact ⟨h.1, h.2.1, h.2.2.1, h.2.2.2 (by norm_num)⟩

/-! ### Conversation memory: C3, C4, C6, C10 -/

theorem keepLast_append {n : ℕ} (pre : List α) {m : List α} (h : n ≤ m.length) :
    keepLast n (pre ++ m) = keepLast n m := by
  unfold keepLast
  have he : (pre ++ m).length - n = pre.length + (m.length - n) := by
    simp only [List.length_append]
    omega
  rw [he, List.drop_append]

theorem keepLast_keepLast_append (n : ℕ) (l r : List α) :
    keepLast n (keepLast n l ++ r) = keepLast n (l ++ r) := by
  rcases le_or_lt n l.length with h | h
  · have h1 : keepLast n (l.take (l.length - n) ++ (l.drop (l.length - n) ++ r)) =
        keepLast n (l.drop (l.length - n) ++ r) :=
      keepLast_append _ (by simp only [List.length_append, List.length_drop]; omega)
    calc keepLast n (keepLast n l ++ r)
        = keepLast n (l.drop (l.length - n) ++ r) := rfl
      _ = keepLast n (l.take (l.length - n) ++ (l.drop (l.length - n) ++ r)) := h1.symm
      _ = keepLast n (l ++ r) := by rw [← List.append_assoc, List.take_append_drop]
  · have h0 : l.length - n = 0 := by omega
    simp only [keepLast]
    rw [h0, List.drop_zero]

theorem pushAndTrim_eq_keepLast (maxT : ℕ) (h : 1 ≤ maxT) (mem : List Turn) (t : Turn) :
    pushAndTrim maxT mem t = keepLast (maxT * 2) (mem ++ [t]) := by
  simp only [pushAndTrim, trimMemory, jsSliceNeg, keepLast]
  split_ifs with h1 h2
  · exact absurd h2 (by omega)
  · rfl
  · have h0 : (mem ++ [t]).length - maxT * 2 = 0 := by omega
    rw [h0, List.drop_zero]

theorem foldl_pushAndTrim (maxT : ℕ) (h : 1 ≤ maxT) :
    ∀ (ts mem : List Turn),
      List.foldl (pushAndTrim maxT) (keepLast (maxT * 2) mem) ts =
        keepLast (maxT * 2) (mem ++ ts) := by
  intro ts
  induction ts with
  | nil => intro mem; simp
  | cons t ts ih =>
      intro mem
      rw [List.foldl_cons, pushAndTrim_eq_keepLast maxT h, keepLast_keepLast_append]
      have := ih (mem ++ [t])
      simpa using this

theorem foldl_pushAndTrim_nil (maxT : ℕ) (h : 1 ≤ maxT) (ts : List Turn) :
    List.foldl (pushAndTrim maxT) [] ts = keepLast (maxT * 2) ts := by
  have hstart : (keepLast (maxT * 2) [] : List Turn) = [] := by simp [keepLast]
  have := foldl_pushAndTrim maxT h ts []
  rw [hstart] at this
  simpa using this

/-- C4 (amended to `maxTurns ≥ 1`): after appending `2·maxTurns + 2` turns
through the push-and-trim unit of `query`, the stored list is exactly the most
recent `2·maxTurns` turns in oldest-first order, `buildConversationHistory`
renders exactly those turns, and no push-and-trim ever leaves more than
`2·maxTurns` entries. -/
theorem memory_window (maxT : ℕ) (h : 1 ≤ maxT) (ts : List Turn)
    (hlen : ts.length = maxT * 2 + 2) :
    List.foldl (pushAndTrim maxT) [] ts = ts.drop 2 ∧
    (List.foldl (pushAndTrim maxT) [] ts).length = maxT * 2 ∧
    buildConversationHistory maxT (List.foldl (pushAndTrim maxT) [] ts) =
      String.intercalate "\n" ((ts.drop 2).map renderTurn) ∧
    (∀ (mem : List Turn) (t : Turn), (pushAndTrim maxT mem t).length ≤ maxT * 2) := by
  have hfold := foldl_pushAndTrim_nil maxT h ts
  have hdrop : keepLast (maxT * 2) ts = ts.drop 2 := by
    unfold keepLast
    rw [hlen]
    congr 1
    omega
  have hmain : List.foldl (pushAndTrim maxT) [] ts = ts.drop 2 := hfold.trans hdrop
  refine ⟨hmain, ?_, ?_, ?_⟩
  · rw [hmain]
    simp only [List.length_drop, hlen]
    omega
  · rw [hmain]
    unfold buildConversationHistory jsSliceNeg
    rw [if_neg (by omega : ¬(maxT * 2 = 0))]
    have h0 : (ts.drop 2).length - maxT * 2 = 0 := by
      simp only [List.length_drop, hlen]
      omega
    rw [h0, List.drop_zero]
  · intro mem t
    rw [pushAndTrim_eq_keepLast maxT h]
    simp only [keepLast, List.length_drop]
    omega

/-- Counterexample to C4 as stated: with `maxTurns = 0` (reachable through
`setMaxMemoryTurns(0)`), the ECMAScript `slice(-0)` quirk makes trimming a
no-op, so after two appends the store holds 2 turns, exceeding
`2·maxTurns = 0`. -/
theorem memory_window_counterexample :
    List.foldl (pushAndTrim 0) [] [⟨Role.user, "q"⟩, ⟨Role.assistant, "a"⟩] =
      [⟨Role.user, "q"⟩, ⟨Role.assistant, "a"⟩] ∧
    ¬((List.foldl (pushAndTrim 0) [] [⟨Role.user, "q"⟩, ⟨Role.assistant, "a"⟩]).length ≤ 2 * 0) := by
  constructor
  · rfl
  · decide

/-- Witness for C4 at `maxTurns = 1` and four appended turns. -/
theorem memory_window_witness :
    List.foldl (pushAndTrim 1) []
        [⟨Role.user, "q1"⟩, ⟨Role.assistant, "a1"⟩, ⟨Role.user, "q2"⟩, ⟨Role.assistant, "a2"⟩] =
      List.drop 2
        [⟨Role.user, "q1"⟩, ⟨Role.assistant, "a1"⟩, ⟨Role.user, "q2"⟩, ⟨Role.assistant, "a2"⟩] ∧
    (List.foldl (pushAndTrim 1) []
        [⟨Role.user, "q1"⟩, ⟨Role.assistant, "a1"⟩, ⟨Role.user, "q2"⟩,
          ⟨Role.assistant, "a2"⟩]).length = 1 * 2 ∧
    buildConversationHistory 1
        (List.foldl (pushAndTrim 1) []
          [⟨Role.user, "q1"⟩, ⟨Role.assistant, "a1"⟩, ⟨Role.user, "q2"⟩,
            ⟨Role.assistant, "a2"⟩]) =
      String.intercalate "\n"
        ((List.drop 2
            [⟨Role.user, "q1"⟩, ⟨Role.assistant, "a1"⟩, ⟨Role.user, "q2"⟩,
              ⟨Role.assistant, "a2"⟩]).map renderTurn) ∧
    (∀ (mem : List Turn) (t : Turn), (pushAndTrim 1 mem t).length ≤ 1 * 2) :=
  memory_window 1 (by decide)
    [⟨Role.user, "q1"⟩, ⟨Role.assistant, "a1"⟩, ⟨Role.user, "q2"⟩, ⟨Role.assistant, "a2"⟩] rfl

theorem pushAndTrim_getLast (maxT : ℕ) (mem : List Turn) (t : Turn) :
    (pushAndTrim maxT mem t).getLast? = some t := by
  simp only [pushAndTrim, trimMemory, jsSliceNeg]
  split_ifs with h1 h2
  · simp
  · have hd : (mem ++ [t]).length - maxT * 2 < (mem ++ [t]).length := by
      simp only [List.length_append, List.length_singleton] at *
      omega
    have hne : (mem ++ [t]).drop ((mem ++ [t]).length - maxT * 2) ≠ [] := by
      intro hcon
      have hl := congrArg List.length hcon
      simp only [List.length_drop, List.length_nil] at hl
      omega
    have hlast : (mem ++ [t]).getLast? = some t := by simp
    rw [← hlast]
    conv_rhs => rw [← List.take_append_drop ((mem ++ [t]).length - maxT * 2) (mem ++ [t])]
    rw [List.getLast?_append_of_ne_nil _ hne]
  · simp

theorem trimMemory_suffix (maxT : ℕ) (l : List Turn) : trimMemory maxT l <:+ l := by
  unfold trimMemory jsSliceNeg
  split_ifs
  · exact List.suffix_refl l
  · exact List.drop_suffix _ _
  · exact List.suffix_refl l

/-- C3: when the generation chain throws, `query` returns the fixed error
string (it does not raise), the user turn has been pushed (and trimmed) into
memory and remains its last entry, and nothing else — in particular no
assistant turn — has been appended (the new memory is a suffix of the old
memory plus the user turn). -/
theorem query_provider_failure (st : RAGState) (q : String) (h : st.retrieverSet = true) :
    (queryModel st q (Except.error ())).2 = "An error occurred while processing your request." ∧
    (queryModel st q (Except.error ())).1.memory =
      pushAndTrim st.maxMemoryTurns st.memory ⟨Role.user, q⟩ ∧
    (queryModel st q (Except.error ())).1.memory.getLast? = some ⟨Role.user, q⟩ ∧
    (queryModel st q (Except.error ())).1.memory <:+ st.memory ++ [⟨Role.user, q⟩] := by
  have hq : queryModel st q (Except.error ()) =
      ({ st with memory := pushAndTrim st.maxMemoryTurns st.memory ⟨Role.user, q⟩ },
        "An error occurred while processing your request.") := by
    unfold queryModel
    rw [h]
    simp
  rw [hq]
  refine ⟨rfl, rfl, pushAndTrim_getLast _ _ _, ?_⟩
  exact trimMemory_suffix st.maxMemoryTurns (st.memory ++ [⟨Role.user, q⟩])

/-- Witness for C3 at an empty initial memory. -/
theorem query_provider_failure_witness :
    (queryModel ⟨true, [], 10⟩ "hi" (Except.error ())).2 =
      "An error occurred while processing your request." ∧
    (queryModel ⟨true, [], 10⟩ "hi" (Except.error ())).1.memory =
      pushAndTrim 10 [] ⟨Role.user, "hi"⟩ ∧
    (queryModel ⟨true, [], 10⟩ "hi" (Except.error ())).1.memory.getLast? =
      some ⟨Role.user, "hi"⟩ ∧
    (queryModel ⟨true, [], 10⟩ "hi" (Except.error ())).1.memory <:+
      ([] : List Turn) ++ [⟨Role.user, "hi"⟩] :=
  query_provider_failure ⟨true, [], 10⟩ "hi" rfl

/-- C6: calling `query` before the retriever exists returns the fixed
not-initialized message as an ordinary string result (no exception state in
the model). -/
theorem query_not_ready_message (st : RAGState) (q : String) (res : Except Unit String)
    (h : st.retrieverSet = false) :
    queryModel st q res = (st, "Vector store not initialized.") := by
  unfold queryModel
  rw [h]
  rfl

/-- Witness for C6. -/
theorem query_not_ready_message_witness :
    queryModel ⟨false, [], 10⟩ "hello" (Except.ok "x") =
      (⟨false, [], 10⟩, "Vector store not initialized.") :=
  query_not_ready_message ⟨false, [], 10⟩ "hello" (Except.ok "x") rfl

/-- C10: the not-initialized guard returns before any memory write, so the
conversation memory is left unchanged (the question is not recorded). -/
theorem query_not_ready_memory_unchanged (st : RAGState) (q : String)
    (res : Except Unit String) (h : st.retrieverSet = false) :
    (queryModel st q res).1.memory = st.memory := by
  unfold queryModel
  rw [h]
  rfl

/-- Witness for C10 at a nonempty prior memory. -/
theorem query_not_ready_memory_unchanged_witness :
    (queryModel ⟨false, [⟨Role.user, "old"⟩], 10⟩ "new question" (Except.error ())).1.memory =
      [⟨Role.user, "old"⟩] :=
  query_not_ready_memory_unchanged ⟨false, [⟨Role.user, "old"⟩], 10⟩ "new question"
    (Except.error ()) rfl

/-! ### C7: feature flags fail fast -/

/-- C7: with the corresponding runtime flag off, each search adapter returns
its named disabled error immediately: no `SearchCall` descriptor for the
external index is ever produced. -/
theorem search_flag_fail_fast (v : Option String) (h : flagEnabled v = false) :
    (∀ (idx q : String) (p : List String) (lim : ℕ) (f : Option MongoFilter),
      textSearch v idx q p lim f =
        Except.error "BM25 text search disabled via BM25_SEARCH_ENABLED=false") ∧
    (∀ (idx : String) (qv : List ℝ) (k : ℕ) (f : Option MongoFilter),
      vectorSearch v idx qv k f =
        Except.error "Vector search disabled via VECTOR_SEARCH_ENABLED=false") := by
  constructor
  · intro idx q p lim f
    unfold textSearch
    rw [if_pos h]
  · intro idx qv k f
    unfold vectorSearch
    rw [if_pos h]

/-- Witness for C7 with the flag literally set to `"false"`. -/
theorem search_flag_fail_fast_witness :
    textSearch (some "false") "idx" "q" ["content"] 10 none =
      Except.error "BM25 text search disabled via BM25_SEARCH_ENABLED=false" ∧
    vectorSearch (some "false") "idx" [1, 2] 5 none =
      Except.error "Vector search disabled via VECTOR_SEARCH_ENABLED=false" :=
  ⟨(search_flag_fail_fast (some "false") (by decide)).1 "idx" "q" ["content"] 10 none,
   (search_flag_fail_fast (some "false") (by decide)).2 "idx" [1, 2] 5 none⟩

/-! ### C8: sequential embedding fallback preserves order -/

/-- C8: the per-item fallback loop produces exactly the map of the per-item
provider call over the inputs, so the i-th output vector is the embedding of
the i-th input text. -/
theorem embed_fallback_order (embedQuery : String → List ℝ) (texts : List String) :
    embedIndividually embedQuery texts = texts.map embedQuery ∧
    ∀ i : ℕ, (embedIndividually embedQuery texts)[i]? = (texts[i]?).map embedQuery := by
  have hfold : ∀ (ts : List String) (acc : List (List ℝ)),
      ts.foldl (fun vectors t => vectors ++ [embedQuery t]) acc = acc ++ ts.map embedQuery := by
    intro ts
    induction ts with
    | nil => intro acc; simp
    | cons t ts ih => intro acc; simp [ih]
  have h1 : embedIndividually embedQuery texts = texts.map embedQuery := by
    unfold embedIndividually
    rw [hfold]
    simp
  refine ⟨h1, ?_⟩
  intro i
  rw [h1, List.getElem?_map]

/-! ### C9: chunk size and overlap of the (spec-modelled) splitter -/

theorem splitTextGo_fuel (c o : ℕ) :
    ∀ (f1 f2 : ℕ) (text : List α), text.length ≤ f1 → text.length ≤ f2 →
      splitTextGo c o f1 text = splitTextGo c o f2 text := by
  intro f1
  induction f1 with
  | zero =>
      intro f2 text h1 _
      have h0 : text.length = 0 := by omega
      cases f2 with
      | zero => rfl
      | succ f2 => simp [splitTextGo, h0]
  | succ f1 ih =>
      intro f2 text h1 h2
      cases f2 with
      | zero =>
          have h0 : text.length = 0 := by omega
          simp [splitTextGo, h0]
      | succ f2 =>
          simp only [splitTextGo]
          by_cases h0 : text.length = 0
          · rw [if_pos h0, if_pos h0]
          · rw [if_neg h0, if_neg h0]
            by_cases hb : text.length ≤ c ∨ c ≤ o
            · rw [if_pos hb, if_pos hb]
            · rw [if_neg hb, if_neg hb]
              push_neg at hb
              congr 1
              apply ih
              · simp only [List.length_drop]
                omega
              · simp only [List.length_drop]
                omega

/-- The recurrence satisfied by `splitText`, independent of the fuel. -/
theorem splitText_eq (c o : ℕ) (text : List α) :
    splitText c o text =
      if text.length = 0 then []
      else if text.length ≤ c ∨ c ≤ o then [text]
      else text.take c :: splitText c o (text.drop (c - o)) := by
  unfold splitText
  cases hl : text.length with
  | zero =>
      simp only [splitTextGo]
      rw [hl]
      simp
  | succ n =>
      simp only [splitTextGo]
      rw [hl]
      rw [if_neg (Nat.succ_ne_zero n), if_neg (Nat.succ_ne_zero n)]
      by_cases hb : n + 1 ≤ c ∨ c ≤ o
      · rw [if_pos hb, if_pos hb]
      · rw [if_neg hb, if_neg hb]
        congr 1
        apply splitTextGo_fuel
        · push_neg at hb
          simp only [List.length_drop]
          omega
        · exact le_refl _

theorem splitText_head (c o : ℕ) (hco : o < c) (text : List α) (h : text.length ≠ 0) :
    (splitText c o text)[0]? = some (text.take c) := by
  rw [splitText_eq, if_neg h]
  by_cases h1 : text.length ≤ c
  · rw [if_pos (Or.inl h1)]
    simp [List.take_of_length_le h1]
  · rw [if_neg (by omega)]
    simp

theorem splitText_spec_aux (c o : ℕ) (hco : o < c) :
    ∀ (n : ℕ) (text : List α), text.length = n →
      (∀ chunk ∈ splitText c o text, chunk.length ≤ c) ∧
      (∀ (i : ℕ) (a b : List α), (splitText c o text)[i]? = some a →
        (splitText c o text)[i + 1]? = some b →
        a.length = c ∧ a.drop (c - o) = b.take o ∧ (a.drop (c - o)).length = o) := by
  intro n
  induction n using Nat.strong_induction_on with
  | _ n ih =>
      intro text hn
      rw [splitText_eq]
      by_cases h0 : text.length = 0
      · rw [if_pos h0]
        constructor
        · intro chunk hc
          simp at hc
        · intro i a b ha _
          simp at ha
      · rw [if_neg h0]
        by_cases h1 : text.length ≤ c
        · rw [if_pos (Or.inl h1)]
          constructor
          · intro chunk hc
            rw [List.mem_singleton] at hc
            exact hc ▸ h1
          · intro i a b _ hb
            rw [List.getElem?_cons_succ] at hb
            simp at hb
        · rw [if_neg (by omega)]
          have hrlen : (text.drop (c - o)).length = text.length - (c - o) := by
            simp
          obtain ⟨ih1, ih2⟩ := ih (text.drop (c - o)).length (by omega) (text.drop (c - o)) rfl
          constructor
          · intro chunk hc
            rcases List.mem_cons.mp hc with rfl | hc'
            · simp
            · exact ih1 chunk hc'
          · intro i a b ha hb
            cases i with
            | zero =>
                rw [List.getElem?_cons_zero] at ha
                obtain rfl : text.take c = a := Option.some.inj ha
                rw [List.getElem?_cons_succ,
                  splitText_head c o hco (text.drop (c - o)) (by omega)] at hb
                obtain rfl : (text.drop (c - o)).take c = b := Option.some.inj hb
                refine ⟨?_, ?_, ?_⟩
                · simp only [List.length_take]
                  omega
                · rw [List.drop_take]
                  have ho : c - (c - o) = o := by omega
                  rw [ho, List.take_take, min_eq_left (le_of_lt hco)]
                · rw [List.drop_take]
                  have ho : c - (c - o) = o := by omega
                  rw [ho]
                  simp only [List.length_take, List.length_drop]
                  omega
            | succ i =>
                rw [List.getElem?_cons_succ] at ha hb
                exact ih2 i a b ha hb

/-- C9 (spec-modelled): for overlap `o < c`, every chunk produced by the
splitter has at most `c` characters, and each pair of adjacent chunks of the
same document shares exactly `o` characters: the chunk before the boundary
has exactly `c` characters and its last `o` characters are the first `o`
characters of the next chunk. -/
theorem splitText_chunk_overlap (c o : ℕ) (text : List α) (hco : o < c) :
    (∀ chunk ∈ splitText c o text, chunk.length ≤ c) ∧
    (∀ (i : ℕ) (a b : List α), (splitText c o text)[i]? = some a →
      (splitText c o text)[i + 1]? = some b →
      a.length = c ∧ a.drop (c - o) = b.take o ∧ (a.drop (c - o)).length = o) :=
  splitText_spec_aux c o hco text.length text rfl

/-- Witness for C9 at `c = 3`, `o = 1`, text `abcde`: chunks `abc` and `cde`
overlap in exactly the one character `c`. -/
theorem splitText_chunk_overlap_witness :
    (splitText 3 1 ['a', 'b', 'c', 'd', 'e'])[0]? = some ['a', 'b', 'c'] ∧
    (splitText 3 1 ['a', 'b', 'c', 'd', 'e'])[1]? = some ['c', 'd', 'e'] ∧
    (∀ chunk ∈ splitText 3 1 (['a', 'b', 'c', 'd', 'e'] : List Char), chunk.length ≤ 3) ∧
    (['a', 'b', 'c'] : List Char).length = 3 ∧
    (['a', 'b', 'c'] : List Char).drop (3 - 1) = (['c', 'd', 'e'] : List Char).take 1 ∧
    ((['a', 'b', 'c'] : List Char).drop (3 - 1)).length = 1 := by
  have h := splitText_chunk_overlap 3 1 ['a', 'b', 'c', 'd', 'e'] (by decide)
  have h0 : (splitText 3 1 ['a', 'b', 'c', 'd', 'e'])[0]? = some ['a', 'b', 'c'] := by decide
  have h1 : (splitText 3 1 ['a', 'b', 'c', 'd', 'e'])[1]? = some ['c', 'd', 'e'] := by decide
  obtain ⟨hl, hadj⟩ := h
  obtain ⟨hA, hB, hC⟩ := hadj 0 _ _ h0 h1
  exact ⟨h0, h1, hl, hA, hB, hC⟩

end SalesforceBot
